import Mathlib

/-!
Shallow embedding of the room-based matchmaking signaling server of
`src/matchbox.rs`: the `ServerState` maps, the room-fill algorithm of
`ServerState::add_peer`, the per-connection relay state machine
(`MatchmakingDemoTopology::state_machine`), and the handshake room parsing
performed by the `on_connection_request` closure in `start`.

Modelling conventions:
* `PeerId` (a UUID) and `SocketAddr` are modelled as `Nat`.
* A `HashMap` is modelled as a function into `Option`; `HashSet<PeerId>` is
  modelled as a duplicate-free `List Nat` (`hsInsert` inserts only when
  absent, exactly like `HashSet::insert`).  The `rooms` map is modelled as
  a total function defaulting to the empty list, which is observationally
  equivalent to the source because the code only accesses it through
  `entry(..).or_default()`, `get(..)` with `unwrap_or_default()`, and a
  best-effort `get_mut(..)`.
* Operations that can panic in Rust (`expect` calls, and the usize
  underflow `num_players - 1` of `add_peer`, which panics in debug builds)
  return `Option`, with `none` standing for the panic.
* The `UnboundedSender` channel handles are not part of the state model;
  instead each relay-phase function returns the list of
  `(recipient, event)` pairs actually delivered.  `try_send` succeeds
  exactly when the recipient is present in `clients`, so a delivery is
  recorded exactly in that case (a failed attempt is only logged by the
  source and delivers nothing).
-/

/-- Pointwise update of a map modelled as a function
(`HashMap::insert` when the new value is `some`, `HashMap::remove` when it
is `none`). -/
def upd {α β : Type} [DecidableEq α] (f : α → β) (a : α) (b : β) : α → β :=
  fun x => if x = a then b else f x

/-- `RequestedRoom` from matchbox.rs; the `RoomId` newtype is inlined as a
`String`, and `next` is the optional room capacity. -/
structure RequestedRoom where
  id : String
  next : Option Nat
deriving DecidableEq

/-- `Peer` from matchbox.rs.  The `sender` channel handle is not modelled
as data; deliveries are returned explicitly by the relay functions. -/
structure Peer where
  uuid : Nat
  room : RequestedRoom
deriving DecidableEq

/-- `ServerState` from matchbox.rs (the four `Mutex`-wrapped maps; the
relay runs them sequentially under the model's single-lock semantics). -/
structure ServerState where
  clients_waiting : Nat → Option RequestedRoom
  clients_in_queue : Nat → Option RequestedRoom
  clients : Nat → Option Peer
  rooms : RequestedRoom → List Nat

/-- `ServerState::default()`: all four maps empty. -/
def initState : ServerState :=
  ⟨fun _ => none, fun _ => none, fun _ => none, fun _ => []⟩

/-- `HashSet::insert`: add the element only when absent (hash sets never
hold duplicates). -/
def hsInsert (l : List Nat) (x : Nat) : List Nat :=
  if x ∈ l then l else x :: l

/-- `ServerState::add_waiting_client` (matchbox.rs 43-45): unconditionally
inserts, silently replacing any existing entry for `origin`. -/
def add_waiting_client (s : ServerState) (origin : Nat) (room : RequestedRoom) :
    ServerState :=
  { s with clients_waiting := upd s.clients_waiting origin (some room) }

/-- `ServerState::assign_id_to_waiting_client` (matchbox.rs 48-57);
`none` models the `expect("waiting client")` panic. -/
def assign_id_to_waiting_client (s : ServerState) (origin : Nat) (peer_id : Nat) :
    Option ServerState :=
  match s.clients_waiting origin with
  | none => none
  | some room =>
    some { s with
            clients_waiting := upd s.clients_waiting origin none,
            clients_in_queue := upd s.clients_in_queue peer_id (some room) }

/-- `ServerState::remove_waiting_peer` (matchbox.rs 60-66); `none` models
the `expect("waiting peer")` panic. -/
def remove_waiting_peer (s : ServerState) (peer_id : Nat) :
    Option (RequestedRoom × ServerState) :=
  match s.clients_in_queue peer_id with
  | none => none
  | some room =>
    some (room, { s with clients_in_queue := upd s.clients_in_queue peer_id none })

/-- `ServerState::add_peer` (matchbox.rs 69-94): register the peer in
`clients`, snapshot the current room set as `prev_peers`, then run the
fill check.  `none` models the usize underflow panic of
`num_players - 1` when `num_players = 0` (debug-build semantics; release
builds wrap, which also diverges from the intended `N - 1` check). -/
def add_peer (s : ServerState) (p : Peer) : Option (List Nat × ServerState) :=
  let s1 : ServerState := { s with clients := upd s.clients p.uuid (some p) }
  let peers : List Nat := s.rooms p.room
  match p.room.next with
  | none =>
    some (peers, { s1 with rooms := upd s1.rooms p.room (hsInsert peers p.uuid) })
  | some num_players =>
    if num_players = 0 then
      none
    else if peers.length = num_players - 1 then
      some (peers, { s1 with rooms := upd s1.rooms p.room [] })
    else
      some (peers, { s1 with rooms := upd s1.rooms p.room (hsInsert peers p.uuid) })

/-- `ServerState::get_peer` (matchbox.rs 97-100). -/
def get_peer (s : ServerState) (peer_id : Nat) : Option Peer :=
  s.clients peer_id

/-- `ServerState::get_room_peers` (matchbox.rs 103-110). -/
def get_room_peers (s : ServerState) (room : RequestedRoom) : List Nat :=
  s.rooms room

/-- `ServerState::remove_peer` (matchbox.rs 114-127): remove from
`clients`; when present, best-effort erase the id from its room's set. -/
def remove_peer (s : ServerState) (peer_id : Nat) : Option Peer × ServerState :=
  match s.clients peer_id with
  | none => (none, s)
  | some peer =>
    (some peer,
      { s with
          clients := upd s.clients peer_id none,
          rooms := upd s.rooms peer.room ((s.rooms peer.room).erase peer_id) })

/-- `JsonPeerEvent`: the outbound events the relay produces. -/
inductive PeerEvent where
  | newPeer (id : Nat)
  | peerLeft (id : Nat)
  | signal (sender : Nat) (data : String)
deriving DecidableEq

/-- `PeerRequest`: the inbound application requests. -/
inductive PeerRequest where
  | signal (receiver : Nat) (data : String)
  | keepAlive
deriving DecidableEq

/-- The `Joining → Active` phase of
`MatchmakingDemoTopology::state_machine` (matchbox.rs 161-178):
`remove_waiting_peer`, `add_peer`, then one `NewPeer(peer_id)` delivery to
each previously waiting peer (delivered when the recipient is still in
`clients`, i.e. when `try_send` succeeds). -/
def state_machine_join (s : ServerState) (peer_id : Nat) :
    Option (ServerState × List (Nat × PeerEvent)) :=
  match remove_waiting_peer s peer_id with
  | none => none
  | some (room, s1) =>
    match add_peer s1 ⟨peer_id, room⟩ with
    | none => none
    | some (prior, s2) =>
      some (s2,
        (prior.filter (fun q => (s2.clients q).isSome)).map
          (fun q => (q, PeerEvent.newPeer peer_id)))

/-- One `Active → Active` message-loop iteration of `state_machine`
(matchbox.rs 203-224) for a parsed request: the deliveries it performs and
whether the loop continues (it always does for a parsed request; an
unknown signal recipient only produces a logged warning). -/
def state_machine_request (s : ServerState) (peer_id : Nat) (req : PeerRequest) :
    List (Nat × PeerEvent) × Bool :=
  match req with
  | PeerRequest.signal receiver data =>
    match get_peer s receiver with
    | some _ => ([(receiver, PeerEvent.signal peer_id data)], true)
    | none => ([], true)
  | PeerRequest.keepAlive => ([], true)

/-- The `Active → Closed` phase of `state_machine` (matchbox.rs 227-244):
`remove_peer`, and when a peer was removed, one `PeerLeft` delivery to
each member of its room's current set other than itself. -/
def state_machine_close (s : ServerState) (peer_id : Nat) :
    ServerState × List (Nat × PeerEvent) :=
  match remove_peer s peer_id with
  | (none, s1) => (s1, [])
  | (some peer, s1) =>
    let others := (get_room_peers s1 peer.room).filter (fun q => q ≠ peer_id)
    (s1,
      (others.filter (fun q => (s1.clients q).isSome)).map
        (fun q => (q, PeerEvent.peerLeft peer.uuid)))

/-- `usize::MAX` on the 64-bit targets the server is built for. -/
def usizeMax : Nat := 2 ^ 64 - 1

/-- Digit-accumulation loop of Rust's `usize::from_str`: each character
must be an ASCII digit and the checked arithmetic must stay within
`usize` range. -/
def parse_usize_digits : List Char → Nat → Option Nat
  | [], acc => some acc
  | c :: rest, acc =>
    if c.isDigit then
      let v := acc * 10 + (c.toNat - 48)
      if v ≤ usizeMax then parse_usize_digits rest v else none
    else none

/-- Rust `str::parse::<usize>()`: an optional leading `'+'` followed by a
nonempty run of ASCII digits whose value fits in `usize`; anything else
(including a leading `'-'` or whitespace) fails.  Zero is accepted. -/
def parse_usize (str : String) : Option Nat :=
  match str.toList with
  | [] => none
  | c :: rest =>
    if c = '+' then
      if rest.isEmpty then none else parse_usize_digits rest 0
    else parse_usize_digits (c :: rest) 0

/-- The `RequestedRoom` built by the `on_connection_request` closure
(matchbox.rs 272-279): path (or `""`) as the room id, and
`query_params.get("next").and_then(|next| next.parse::<usize>().ok())` as
the capacity. -/
def on_connection_request_room (path : Option String)
    (query_params : String → Option String) : RequestedRoom :=
  { id := path.getD "", next := (query_params "next").bind parse_usize }

/-- Join a list of peers into `room` one after the other through
`add_peer` (the Room Directory view of successive joins). -/
def joinSeq (room : RequestedRoom) : List Nat → ServerState → Option ServerState
  | [], s => some s
  | i :: rest, s =>
    match add_peer s ⟨i, room⟩ with
    | none => none
    | some x => joinSeq room rest x.2

/-- A sequence of joins into one room interleaved with removals (for the
uncapacitated-room membership property). -/
inductive RoomOp where
  | join (i : Nat)
  | leave (i : Nat)
deriving DecidableEq

/-- Replay a sequence of joins/removals against the server state:
a join is `add_peer`, a removal is `remove_peer`. -/
def replayRoomOps (room : RequestedRoom) : List RoomOp → ServerState → Option ServerState
  | [], s => some s
  | RoomOp.join i :: rest, s =>
    match add_peer s ⟨i, room⟩ with
    | none => none
    | some x => replayRoomOps room rest x.2
  | RoomOp.leave i :: rest, s => replayRoomOps room rest (remove_peer s i).2

/-- The set of identities joined by a sequence of room operations. -/
def joinedOf : List RoomOp → Finset Nat
  | [] => ∅
  | RoomOp.join i :: rest => insert i (joinedOf rest)
  | RoomOp.leave _ :: rest => joinedOf rest

/-- The set of identities removed by a sequence of room operations. -/
def removedOf : List RoomOp → Finset Nat
  | [] => ∅
  | RoomOp.join _ :: rest => removedOf rest
  | RoomOp.leave i :: rest => insert i (removedOf rest)

/-- No identity joins after having been removed (the accumulator carries
the identities removed so far). -/
def noRejoin : List RoomOp → Finset Nat → Bool
  | [], _ => true
  | RoomOp.join i :: rest, rm => if i ∈ rm then false else noRejoin rest rm
  | RoomOp.leave i :: rest, rm => noRejoin rest (insert i rm)

/-- The C7 invariant: every identity in a room's membership set has a
corresponding entry in `clients` whose `room` equals that set's key. -/
def roomsClientsConsistent (s : ServerState) : Prop :=
  ∀ r q, q ∈ s.rooms r → ∃ p, s.clients q = some p ∧ p.room = r

/-- States reachable from the empty state by arbitrary sequences of the
public `ServerState` operations. -/
inductive Reachable : ServerState → Prop where
  | base : Reachable initState
  | waiting {s : ServerState} (o : Nat) (r : RequestedRoom) :
      Reachable s → Reachable (add_waiting_client s o r)
  | assign {s t : ServerState} (o i : Nat) :
      Reachable s → assign_id_to_waiting_client s o i = some t → Reachable t
  | claim {s t : ServerState} {r : RequestedRoom} (i : Nat) :
      Reachable s → remove_waiting_peer s i = some (r, t) → Reachable t
  | join {s t : ServerState} {l : List Nat} (p : Peer) :
      Reachable s → add_peer s p = some (l, t) → Reachable t
  | leave {s : ServerState} (i : Nat) :
      Reachable s → Reachable ((remove_peer s i).2)

/-- Like `Reachable`, but a peer only joins while its identity is not
already active — the discipline the transport's unique id assignment
guarantees in the running server. -/
inductive ReachableFresh : ServerState → Prop where
  | base : ReachableFresh initState
  | waiting {s : ServerState} (o : Nat) (r : RequestedRoom) :
      ReachableFresh s → ReachableFresh (add_waiting_client s o r)
  | assign {s t : ServerState} (o i : Nat) :
      ReachableFresh s → assign_id_to_waiting_client s o i = some t → ReachableFresh t
  | claim {s t : ServerState} {r : RequestedRoom} (i : Nat) :
      ReachableFresh s → remove_waiting_peer s i = some (r, t) → ReachableFresh t
  | join {s t : ServerState} {l : List Nat} (p : Peer) :
      ReachableFresh s → s.clients p.uuid = none →
      add_peer s p = some (l, t) → ReachableFresh t
  | leave {s : ServerState} (i : Nat) :
      ReachableFresh s → ReachableFresh ((remove_peer s i).2)

/-- Invariant carried through the proof of the uncapacitated-room
membership property: the room list is the joined-minus-removed set and is
duplicate-free, and `clients` holds exactly its members, all pointing at
`R`. -/
def c6Inv (R : RequestedRoom) (s : ServerState) (J Rm : Finset Nat) : Prop :=
  (s.rooms R).toFinset = J \ Rm ∧ (s.rooms R).Nodup ∧
  (∀ x : Nat, (s.clients x).isSome = true ↔ x ∈ J \ Rm) ∧
  (∀ x p, s.clients x = some p → p.room = R)

/- Concrete rooms, query maps and states used by the end-to-end scenarios
of spec section 8 and by the witnesses. -/

/-- The `{id: "lobby", capacity: 2}` room of the end-to-end scenario. -/
def lobbyRoom : RequestedRoom := ⟨"lobby", some 2⟩

/-- The `{id: "open"}` uncapacitated room of the second scenario. -/
def openRoom : RequestedRoom := ⟨"open", none⟩

/-- End-to-end scenario of spec section 8: peers A (id 1, from address
100) and B (id 2, from address 101) join `lobbyRoom` in order, through the
full pipeline (handshake registration, id assignment, relay join). -/
def scenarioAB : Option ServerState :=
  (assign_id_to_waiting_client (add_waiting_client initState 100 lobbyRoom) 100 1).bind fun sa =>
  (state_machine_join sa 1).bind fun xa =>
  (assign_id_to_waiting_client (add_waiting_client xa.1 101 lobbyRoom) 101 2).bind fun sb =>
  (state_machine_join sb 2).map fun xb => xb.1

/-- The deliveries performed when peer B (id 2) disconnects at the end of
the scenario. -/
def scenarioCloseSends : Option (List (Nat × PeerEvent)) :=
  scenarioAB.map fun s => (state_machine_close s 2).2

/-- A state with peers 10 and 11 active in the open room (11 joined
last). -/
def dStateOpen : ServerState :=
  ⟨fun _ => none, fun _ => none,
   fun i => if i = 10 then some ⟨10, openRoom⟩
            else if i = 11 then some ⟨11, openRoom⟩ else none,
   fun r => if r = openRoom then [11, 10] else []⟩

/-- Queue state for the C/D scenario: ids 10 and 11 both assigned and
waiting to start their relay state machines for the open room. -/
def c3Start : ServerState :=
  ⟨fun _ => none,
   fun i => if i = 10 then some openRoom else if i = 11 then some openRoom else none,
   fun _ => none, fun _ => []⟩

/-- State after peer 10 joined the open room while peer 11 is still in the
queue. -/
def c3Queue : ServerState :=
  ⟨fun _ => none,
   fun i => if i = 11 then some openRoom else none,
   fun i => if i = 10 then some ⟨10, openRoom⟩ else none,
   fun r => if r = openRoom then [10] else []⟩

/-- Rooms and pending entries used by the overwrite counterexample. -/
def roomA : RequestedRoom := ⟨"a", none⟩

/-- Second room for the overwrite counterexample. -/
def roomB : RequestedRoom := ⟨"b", none⟩

/-- Capacity-1 room for the fresh-batch counterexample. -/
def vRoom : RequestedRoom := ⟨"v", some 1⟩

/-- Capacity-2 room for the fill witness. -/
def wRoom : RequestedRoom := ⟨"w", some 2⟩

/-- Open rooms under different ids, used to exhibit a double-join breaking
the membership invariant. -/
def roomR : RequestedRoom := ⟨"r", none⟩

/-- See `roomR`. -/
def roomS : RequestedRoom := ⟨"s", none⟩

/-- Identity 0 joining `roomR`. -/
def cexPeerR : Peer := ⟨0, roomR⟩

/-- Identity 0 joining `roomS` (same identity, different room). -/
def cexPeerS : Peer := ⟨0, roomS⟩

/-- State after identity 0 joined `roomR`. -/
def cexS1 : ServerState :=
  { initState with
      clients := upd initState.clients 0 (some cexPeerR),
      rooms := upd initState.rooms roomR [0] }

/-- State after identity 0 additionally joined `roomS`: `roomR`'s set
still contains 0 but 0's client entry now points at `roomS`. -/
def cexS2 : ServerState :=
  { cexS1 with
      clients := upd cexS1.clients 0 (some cexPeerS),
      rooms := upd cexS1.rooms roomS [0] }

/-- Query-parameter map carrying `next=0`. -/
def qpZero : String → Option String :=
  fun k => if k = "next" then some "0" else none

/-- Query-parameter map carrying `next=7`. -/
def qpSeven : String → Option String :=
  fun k => if k = "next" then some "7" else none

/-! ## Basic map lemmas -/

@[simp]
theorem upd_self {α β : Type} [DecidableEq α] (f : α → β) (a : α) (b : β) :
    upd f a b a = b := by
  simp [upd]

theorem upd_ne {α β : Type} [DecidableEq α] (f : α → β) (a : α) (b : β) {x : α}
    (h : x ≠ a) : upd f a b x = f x := by
  simp [upd, h]

/-! ## C10 — the fill check underflows at capacity 0 -/

/-- C10: the claim says `add_peer` never panics, even for a descriptor
with capacity `Some 0`.  It does not hold: with capacity `Some 0` the fill
check computes `num_players - 1 = 0usize - 1`, which underflows (a panic
in debug builds, modelled as `none`).  This theorem evaluates the model at
the failing input. -/
theorem add_peer_capacity_zero_panics :
    add_peer initState ⟨0, ⟨"x", some 0⟩⟩ = none := rfl

/-! ## C9 — removing a peer twice is idempotent -/

/-- C9: removing the same peer identity twice is idempotent: the second
removal returns `none` ("absent"), leaves the whole state unchanged, and
the `Closed` transition driven by it performs no deliveries. -/
theorem remove_peer_idempotent (s : ServerState) (pid : Nat) :
    remove_peer (state_machine_close s pid).1 pid = (none, (state_machine_close s pid).1) ∧
    state_machine_close (state_machine_close s pid).1 pid =
      ((state_machine_close s pid).1, []) := by
  have hkey : ((state_machine_close s pid).1).clients pid = none := by
    cases h : s.clients pid with
    | none => simp [state_machine_close, remove_peer, h]
    | some peer => simp [state_machine_close, remove_peer, h]
  have step : ∀ t : ServerState, t.clients pid = none →
      remove_peer t pid = (none, t) ∧ state_machine_close t pid = (t, []) := by
    intro t ht
    constructor
    · simp [remove_peer, ht]
    · simp [state_machine_close, remove_peer, ht]
  exact step _ hkey

/-! ## C4 — registerPending overwrites instead of failing -/

/-- C4 counterexample: the claim says a second registration for an
already-pending address fails with `DuplicateAddress` rather than
silently overwriting.  In the code `add_waiting_client` is a plain
`HashMap::insert`: re-registering address 3 (pending for `roomA`) with
`roomB` silently replaces the entry. -/
theorem add_waiting_client_overwrites_cex :
    (add_waiting_client (add_waiting_client initState 3 roomA) 3 roomB).clients_waiting 3 =
      some roomB ∧ roomB ≠ roomA := by
  constructor
  · simp [add_waiting_client]
  · decide

/-- C4 amended: `add_waiting_client` records the descriptor under the
address, silently replacing any existing pending entry for that address;
it cannot fail, and it touches no other map and no other address. -/
theorem add_waiting_client_spec (s : ServerState) (o : Nat) (r : RequestedRoom) :
    (add_waiting_client s o r).clients_waiting o = some r ∧
    (∀ o', o' ≠ o → (add_waiting_client s o r).clients_waiting o' = s.clients_waiting o') ∧
    (add_waiting_client s o r).clients_in_queue = s.clients_in_queue ∧
    (add_waiting_client s o r).clients = s.clients ∧
    (add_waiting_client s o r).rooms = s.rooms := by
  exact ⟨by simp [add_waiting_client],
         fun o' h => by simp [add_waiting_client, upd_ne _ _ _ h],
         rfl, rfl, rfl⟩

/-- Witness for `add_waiting_client_spec` at a concrete input. -/
theorem add_waiting_client_spec_witness :
    (add_waiting_client initState 5 roomA).clients_waiting 5 = some roomA ∧
    (add_waiting_client initState 5 roomA).clients_waiting 6 = initState.clients_waiting 6 :=
  ⟨(add_waiting_client_spec initState 5 roomA).1,
   (add_waiting_client_spec initState 5 roomA).2.1 6 (by decide)⟩

/-! ## C8 — signal routing -/

/-- C8: a `Signal{to: x, payload: d}` request from peer `a` is delivered
to `x` verbatim (sender `a`, payload `d` unchanged) when `x` is active,
and produces no delivery — with the message loop continuing (`true`) —
when `x` is unknown or has departed. -/
theorem signal_relay_spec (s : ServerState) (a x : Nat) (d : String) :
    (∀ p, get_peer s x = some p →
      state_machine_request s a (PeerRequest.signal x d) =
        ([(x, PeerEvent.signal a d)], true)) ∧
    (get_peer s x = none →
      state_machine_request s a (PeerRequest.signal x d) = ([], true)) := by
  constructor
  · intro p hp
    simp [state_machine_request, hp]
  · intro hp
    simp [state_machine_request, hp]

/-- Witness for `signal_relay_spec`: peer 10 signals active peer 11 and
unknown peer 99. -/
theorem signal_relay_spec_witness :
    state_machine_request dStateOpen 10 (PeerRequest.signal 11 "offer") =
      ([(11, PeerEvent.signal 10 "offer")], true) ∧
    state_machine_request dStateOpen 10 (PeerRequest.signal 99 "offer") = ([], true) :=
  ⟨(signal_relay_spec dStateOpen 10 11 "offer").1 ⟨11, openRoom⟩ (by decide),
   (signal_relay_spec dStateOpen 10 99 "offer").2 (by decide)⟩

/-! ## C5 — capacity parsing -/

/-- The digit loop never produces a value above `usize::MAX`. -/
theorem parse_usize_digits_le (l : List Char) :
    ∀ acc n : Nat, acc ≤ usizeMax → parse_usize_digits l acc = some n → n ≤ usizeMax := by
  induction l with
  | nil =>
    intro acc n hacc h
    simp [parse_usize_digits] at h
    omega
  | cons c rest ih =>
    intro acc n hacc h
    by_cases hd : c.isDigit
    · by_cases hv : acc * 10 + (c.toNat - 48) ≤ usizeMax
      · rw [parse_usize_digits, if_pos hd] at h
        simp only [if_pos hv] at h
        exact ih _ n hv h
      · rw [parse_usize_digits, if_pos hd] at h
        simp only [if_neg hv] at h
        cases h
    · rw [parse_usize_digits, if_neg hd] at h
      cases h

/-- C5 counterexample: the claim says `next=0` (not a positive integer)
leaves the capacity unset.  In the code `"0".parse::<usize>()` succeeds,
so the derived descriptor carries capacity `some 0`. -/
theorem capacity_next_zero_cex :
    (on_connection_request_room (some "lobby") qpZero).next = some 0 ∧
    (some 0 : Option Nat) ≠ none := by
  constructor
  · decide
  · decide

/-- C5 amended: the derived capacity is `some n` exactly when the `next`
query parameter is present and parses as a Rust `usize` — a nonnegative
integer within `usize` range, zero included (so `next=0` yields
`some 0`, not "unset"). -/
theorem capacity_parse_spec :
    (∀ (path : Option String) (qp : String → Option String) (n : Nat),
      (on_connection_request_room path qp).next = some n ↔
        ∃ str, qp "next" = some str ∧ parse_usize str = some n) ∧
    (∀ (str : String) (n : Nat), parse_usize str = some n → n ≤ usizeMax) ∧
    parse_usize "0" = some 0 := by
  refine ⟨?_, ?_, by decide⟩
  · intro path qp n
    simp [on_connection_request_room, Option.bind_eq_some]
  · intro str n h
    rw [parse_usize] at h
    cases hl : str.toList with
    | nil => rw [hl] at h; cases h
    | cons c rest =>
      rw [hl] at h
      simp only [] at h
      by_cases hc : c = '+'
      · rw [if_pos hc] at h
        by_cases he : rest.isEmpty
        · rw [if_pos he] at h; cases h
        · rw [if_neg he] at h
          exact parse_usize_digits_le rest 0 n (by simp [usizeMax]) h
      · rw [if_neg hc] at h
        exact parse_usize_digits_le (c :: rest) 0 n (by simp [usizeMax]) h

/-- Witness for `capacity_parse_spec`: `next=7` yields capacity 7, within
`usize` range. -/
theorem capacity_parse_spec_witness :
    (on_connection_request_room (some "p") qpSeven).next = some 7 ∧ (7 : Nat) ≤ usizeMax :=
  ⟨(capacity_parse_spec.1 (some "p") qpSeven 7).mpr ⟨"7", by decide, by decide⟩,
   capacity_parse_spec.2.1 "7" 7 (by decide)⟩

/-! ## Shape of `add_peer` results -/

/-- When the requested capacity is not `some 0`, `add_peer` succeeds,
returns the pre-join room set as the prior-member snapshot, records the
peer in `clients`, and either inserts it into the room set or clears the
set (fill-reset); the waiting maps are untouched. -/
theorem add_peer_clients (s : ServerState) (p : Peer) (hcap : p.room.next ≠ some 0) :
    ∃ t, add_peer s p = some (s.rooms p.room, t) ∧
      t.clients = upd s.clients p.uuid (some p) ∧
      (t.rooms = upd s.rooms p.room (hsInsert (s.rooms p.room) p.uuid) ∨
        t.rooms = upd s.rooms p.room []) ∧
      t.clients_waiting = s.clients_waiting ∧
      t.clients_in_queue = s.clients_in_queue := by
  cases hnext : p.room.next with
  | none =>
    refine ⟨{ s with
        clients := upd s.clients p.uuid (some p)
        rooms := upd s.rooms p.room (hsInsert (s.rooms p.room) p.uuid) },
      ?_, rfl, Or.inl rfl, rfl, rfl⟩
    simp [add_peer, hnext]
  | some n =>
    have hn : n ≠ 0 := fun h0 => hcap (by rw [hnext, h0])
    by_cases hlen : (s.rooms p.room).length = n - 1
    · refine ⟨{ s with
          clients := upd s.clients p.uuid (some p)
          rooms := upd s.rooms p.room [] },
        ?_, rfl, Or.inr rfl, rfl, rfl⟩
      simp [add_peer, hnext, hn, hlen]
    · refine ⟨{ s with
          clients := upd s.clients p.uuid (some p)
          rooms := upd s.rooms p.room (hsInsert (s.rooms p.room) p.uuid) },
        ?_, rfl, Or.inl rfl, rfl, rfl⟩
      simp [add_peer, hnext, hn, hlen]

/-- A successful `add_peer` implies the capacity was not `some 0`. -/
theorem add_peer_ne_zero {s : ServerState} {p : Peer} {l : List Nat} {t : ServerState}
    (h : add_peer s p = some (l, t)) : p.room.next ≠ some 0 := by
  intro hx
  simp [add_peer, hx] at h

/-! ## C1 — PeerLeft notifications on disconnect -/

/-- C1 amended: when a peer's connection ends, each identity remaining in
the departed peer's room set — all of them active, as they are in every
reachable state — receives exactly one `PeerLeft` notification for the
departure, and the departing peer never notifies itself.  In the section-8
end-to-end scenario, however, B's join filled the capacity-2 room and
cleared its set, so after B disconnects no peer remains in the set and A
receives no `PeerLeft(B)` (the final conjunct). -/
theorem peer_left_notification_spec (s : ServerState) (pid : Nat) (peer : Peer)
    (hc : s.clients pid = some peer) (huuid : peer.uuid = pid)
    (hnd : (s.rooms peer.room).Nodup)
    (hact : ∀ q ∈ s.rooms peer.room, q ≠ pid → (s.clients q).isSome = true) :
    (state_machine_close s pid).2 =
      ((s.rooms peer.room).erase pid).map (fun q => (q, PeerEvent.peerLeft pid)) ∧
    pid ∉ ((state_machine_close s pid).2.map Prod.fst) ∧
    ((state_machine_close s pid).2.map Prod.fst).Nodup ∧
    scenarioCloseSends = some [] := by
  have hmain : (state_machine_close s pid).2 =
      ((s.rooms peer.room).erase pid).map (fun q => (q, PeerEvent.peerLeft pid)) := by
    simp only [state_machine_close, remove_peer, hc, get_room_peers, upd_self, huuid]
    rw [List.filter_eq_self.mpr, List.filter_eq_self.mpr]
    · intro a ha
      simpa using (hnd.mem_erase_iff.mp ha).1
    · intro a ha
      simp only [List.mem_filter] at ha
      obtain ⟨haer, hane⟩ := ha
      have hne : a ≠ pid := by simpa using hane
      rw [upd_ne _ _ _ hne]
      exact hact a (List.mem_of_mem_erase haer) hne
  have hcomp : (Prod.fst ∘ fun q : Nat => (q, PeerEvent.peerLeft pid)) = id := by
    funext q
    rfl
  refine ⟨hmain, ?_, ?_, by decide⟩
  · rw [hmain]
    intro hmem
    simp only [List.map_map, hcomp, List.map_id] at hmem
    exact (hnd.mem_erase_iff.mp hmem).1 rfl
  · rw [hmain]
    simp only [List.map_map, hcomp, List.map_id]
    exact hnd.erase pid

/-- Witness for `peer_left_notification_spec`: peer 11 disconnects from
the open room it shares with peer 10. -/
theorem peer_left_notification_spec_witness :
    (state_machine_close dStateOpen 11).2 =
      ((dStateOpen.rooms (Peer.mk 11 openRoom).room).erase 11).map
        (fun q => (q, PeerEvent.peerLeft 11)) ∧
    11 ∉ ((state_machine_close dStateOpen 11).2.map Prod.fst) ∧
    ((state_machine_close dStateOpen 11).2.map Prod.fst).Nodup ∧
    scenarioCloseSends = some [] :=
  peer_left_notification_spec dStateOpen 11 ⟨11, openRoom⟩ (by decide) rfl
    (by decide) (by decide)

/-- C1 counterexample: in the section-8 scenario (A and B join the
capacity-2 lobby, then B disconnects) the claim says A receives
`PeerLeft(B)`.  The fill-reset cleared the room set at B's join, so B's
disconnect delivers nothing at all — in particular no `PeerLeft(2)` to
peer 1 (A). -/
theorem peer_left_scenario_cex :
    scenarioCloseSends = some [] ∧
    (1, PeerEvent.peerLeft 2) ∉ ([] : List (Nat × PeerEvent)) := by
  constructor
  · decide
  · decide

/-! ## C3 — NewPeer notifications on join -/

/-- C3 amended: when a peer joins a room, each identity already in the
room's waiting set at join time (all active, none equal to the joiner, as
in every reachable state) receives exactly one `NewPeer` notification
carrying the joiner's identity; the joiner itself receives no `NewPeer`
notifications.  (The claim's direction is reversed relative to the code:
the pre-existing members are notified about the newcomer, not the
newcomer about them.) -/
theorem new_peer_notification_spec (s : ServerState) (pid : Nat) (room : RequestedRoom)
    (hq : s.clients_in_queue pid = some room)
    (hnd : (s.rooms room).Nodup)
    (hself : pid ∉ s.rooms room)
    (hact : ∀ q ∈ s.rooms room, (s.clients q).isSome = true)
    (hcap : room.next ≠ some 0) :
    ∃ t, state_machine_join s pid =
        some (t, (s.rooms room).map (fun q => (q, PeerEvent.newPeer pid))) ∧
      (∀ q ∈ s.rooms room,
        (((s.rooms room).map (fun q' => (q', PeerEvent.newPeer pid))).map Prod.fst).count q
          = 1) ∧
      pid ∉ (((s.rooms room).map (fun q' => (q', PeerEvent.newPeer pid))).map Prod.fst) := by
  have hcomp : (Prod.fst ∘ fun q : Nat => (q, PeerEvent.newPeer pid)) = id := by
    funext q
    rfl
  obtain ⟨t, ht, htc, _, _, _⟩ :=
    add_peer_clients { s with clients_in_queue := upd s.clients_in_queue pid none }
      ⟨pid, room⟩ hcap
  refine ⟨t, ?_, ?_, ?_⟩
  · simp only [state_machine_join, remove_waiting_peer, hq, ht]
    rw [List.filter_eq_self.mpr]
    intro a ha
    have hne : a ≠ pid := fun h => hself (h ▸ ha)
    rw [htc]
    rw [upd_ne _ _ _ hne]
    exact hact a ha
  · intro q hq'
    simp only [List.map_map, hcomp, List.map_id]
    exact List.count_eq_one_of_mem hnd hq'
  · simp only [List.map_map, hcomp, List.map_id]
    exact hself

/-- Witness for `new_peer_notification_spec`: peer 11 joins the open room
already holding peer 10. -/
theorem new_peer_notification_spec_witness :
    ∃ t, state_machine_join c3Queue 11 =
        some (t, (c3Queue.rooms openRoom).map (fun q => (q, PeerEvent.newPeer 11))) ∧
      (∀ q ∈ c3Queue.rooms openRoom,
        (((c3Queue.rooms openRoom).map (fun q' => (q', PeerEvent.newPeer 11))).map
            Prod.fst).count q = 1) ∧
      11 ∉ (((c3Queue.rooms openRoom).map (fun q' => (q', PeerEvent.newPeer 11))).map
          Prod.fst) :=
  new_peer_notification_spec c3Queue 11 openRoom (by decide) (by decide) (by decide)
    (by decide) (by decide)

/-- C3 counterexample: peer 10 (C) joins the open room, then peer 11 (D)
joins it.  The claim says the joiner D receives one `NewPeer` per
pre-existing room-mate, i.e. `(11, NewPeer 10)` should be delivered.
Instead the code delivers exactly `(10, NewPeer 11)`: the pre-existing
member is notified about the newcomer, and D receives nothing. -/
theorem new_peer_direction_cex :
    ((state_machine_join c3Start 10).bind fun x =>
        (state_machine_join x.1 11).map (fun y => y.2)) =
      some [(10, PeerEvent.newPeer 11)] ∧
    (11, PeerEvent.newPeer 10) ∉ [(10, PeerEvent.newPeer 11)] := by
  constructor
  · decide
  · decide

/-! ## C2 — capacity-N fill and reset -/

/-- `joinSeq` distributes over list append. -/
theorem joinSeq_append (room : RequestedRoom) (l1 l2 : List Nat) :
    ∀ s : ServerState,
      joinSeq room (l1 ++ l2) s = (joinSeq room l1 s).bind (joinSeq room l2) := by
  induction l1 with
  | nil => intro s; simp [joinSeq]
  | cons i rest ih =>
    intro s
    simp only [List.cons_append, joinSeq]
    cases add_peer s ⟨i, room⟩ with
    | none => rfl
    | some x => simpa using ih x.2

/-- Joining distinct fresh peers into a capacity-`N` room while it stays
strictly below `N - 1` occupants accumulates them (in reverse join order)
without triggering the fill-reset. -/
theorem joinSeq_fill (R : RequestedRoom) (N : Nat) (hR : R.next = some N) (hN : 1 ≤ N) :
    ∀ (ids : List Nat) (s : ServerState), ids.Nodup →
      (∀ i ∈ ids, i ∉ s.rooms R) →
      ids.length + (s.rooms R).length ≤ N - 1 →
      ∃ t, joinSeq R ids s = some t ∧ t.rooms R = ids.reverse ++ s.rooms R := by
  intro ids
  induction ids with
  | nil =>
    intro s _ _ _
    exact ⟨s, rfl, by simp⟩
  | cons i rest ih =>
    intro s hnd hfree hlen
    have hn0 : N ≠ 0 := by omega
    have hmem : i ∉ s.rooms R := hfree i (by simp)
    have hlt : (s.rooms R).length ≠ N - 1 := by
      simp only [List.length_cons] at hlen
      omega
    have hstep : add_peer s ⟨i, R⟩ =
        some (s.rooms R, { s with
          clients := upd s.clients i (some ⟨i, R⟩)
          rooms := upd s.rooms R (i :: s.rooms R) }) := by
      simp [add_peer, hR, hn0, hlt, hsInsert, hmem]
    obtain ⟨t, hjoin, hrooms⟩ := ih { s with
        clients := upd s.clients i (some ⟨i, R⟩)
        rooms := upd s.rooms R (i :: s.rooms R) }
      hnd.of_cons
      (by
        intro j hj
        simp only [upd_self]
        intro hmem'
        rcases List.mem_cons.mp hmem' with h | h
        · exact (List.nodup_cons.mp hnd).1 (h ▸ hj)
        · exact hfree j (List.mem_cons_of_mem i hj) h)
      (by
        simp only [upd_self, List.length_cons]
        simp only [List.length_cons] at hlen
        omega)
    refine ⟨t, ?_, ?_⟩
    · simp only [joinSeq, hstep]
      exact hjoin
    · rw [hrooms]
      simp [List.append_assoc]

/-- C2 amended: for a room of capacity `N ≥ 1`, after exactly `N` distinct
peers join (and none is removed) the membership set is empty, the `N`-th
joiner's prior-member snapshot is exactly the other `N - 1` identities,
and an `(N+1)`-th joiner starts a fresh batch with an empty snapshot; it
becomes the sole waiting member when `N ≥ 2`, while for `N = 1` it
instantly completes another batch and the set stays empty. -/
theorem room_fill_spec (N : Nat) (hN : 1 ≤ N) (R : RequestedRoom) (hR : R.next = some N)
    (ps L : List Nat) (b : Nat) (hsplit : ps = L ++ [b])
    (hnd : ps.Nodup) (hlen : ps.length = N) (q : Nat) :
    ∃ s1 t2 t3,
      joinSeq R L initState = some s1 ∧
      add_peer s1 ⟨b, R⟩ = some (L.reverse, t2) ∧
      joinSeq R ps initState = some t2 ∧
      (L.reverse).toFinset = ps.toFinset \ {b} ∧
      (L.reverse).Nodup ∧
      (L.reverse).length = N - 1 ∧
      get_room_peers t2 R = [] ∧
      add_peer t2 ⟨q, R⟩ = some ([], t3) ∧
      (2 ≤ N → get_room_peers t3 R = [q]) ∧
      (N = 1 → get_room_peers t3 R = []) := by
  subst hsplit
  have hndL : L.Nodup := hnd.of_append_left
  have hbL : b ∉ L := fun h => (List.nodup_append.mp hnd).2.2 h (List.mem_singleton_self b)
  have hLlen : L.length = N - 1 := by
    simp only [List.length_append, List.length_singleton] at hlen
    omega
  have hn0 : N ≠ 0 := by omega
  obtain ⟨s1, h1, h1r⟩ := joinSeq_fill R N hR hN L initState hndL
    (by intro i _; simp [initState])
    (by simp [initState]; omega)
  have h1r' : s1.rooms R = L.reverse := by
    rw [h1r]
    simp [initState]
  have hlen2 : (s1.rooms R).length = N - 1 := by
    rw [h1r']
    simpa using hLlen
  have hstep2 : add_peer s1 ⟨b, R⟩ = some (L.reverse, { s1 with
      clients := upd s1.clients b (some ⟨b, R⟩)
      rooms := upd s1.rooms R [] }) := by
    simp [add_peer, hR, hn0, h1r', hLlen]
  set t2 : ServerState := { s1 with
      clients := upd s1.clients b (some ⟨b, R⟩)
      rooms := upd s1.rooms R [] } with ht2def
  have ht2rooms : t2.rooms R = [] := by
    rw [ht2def]
    simp
  have hfull : joinSeq R (L ++ [b]) initState = some t2 := by
    rw [joinSeq_append R L [b] initState, h1]
    simp [joinSeq, hstep2]
  have htofin : L.reverse.toFinset = (L ++ [b]).toFinset \ {b} := by
    rw [List.toFinset_reverse]
    ext x
    simp only [List.mem_toFinset, Finset.mem_sdiff, List.mem_append, List.mem_singleton,
      Finset.mem_singleton]
    constructor
    · intro hx
      exact ⟨Or.inl hx, fun hxb => hbL (hxb ▸ hx)⟩
    · rintro ⟨hx | hx, hne⟩
      · exact hx
      · exact absurd hx hne
  have hnodupRev : L.reverse.Nodup := List.nodup_reverse.mpr hndL
  have hlenRev : L.reverse.length = N - 1 := by simp [hLlen]
  have ht2empty : get_room_peers t2 R = [] := by simp [get_room_peers]
  by_cases hN1 : N = 1
  · have hstep3 : add_peer t2 ⟨q, R⟩ = some ([], { t2 with
        clients := upd t2.clients q (some ⟨q, R⟩)
        rooms := upd t2.rooms R [] }) := by
      simp [add_peer, hR, hn0, ht2rooms, hN1]
    refine ⟨s1, t2, _, h1, hstep2, hfull, htofin, hnodupRev, hlenRev, ht2empty, hstep3,
      ?_, ?_⟩
    · intro h2N
      omega
    · intro _
      simp [get_room_peers]
  · have h2N : 2 ≤ N := by omega
    have hne0 : ¬ (0 = N - 1) := by omega
    have hstep3 : add_peer t2 ⟨q, R⟩ = some ([], { t2 with
        clients := upd t2.clients q (some ⟨q, R⟩)
        rooms := upd t2.rooms R [q] }) := by
      simp [add_peer, hR, hn0, ht2rooms, hsInsert, hne0]
    refine ⟨s1, t2, _, h1, hstep2, hfull, htofin, hnodupRev, hlenRev, ht2empty, hstep3,
      ?_, ?_⟩
    · intro _
      simp [get_room_peers]
    · intro h1N
      omega

/-- Witness for `room_fill_spec` at `N = 2`: peers 1 and 2 fill `wRoom`,
then peer 3 starts a fresh batch. -/
theorem room_fill_spec_witness :
    ∃ s1 t2 t3,
      joinSeq wRoom [1] initState = some s1 ∧
      add_peer s1 ⟨2, wRoom⟩ = some (([1] : List Nat).reverse, t2) ∧
      joinSeq wRoom [1, 2] initState = some t2 ∧
      (([1] : List Nat).reverse).toFinset = ([1, 2] : List Nat).toFinset \ {2} ∧
      (([1] : List Nat).reverse).Nodup ∧
      (([1] : List Nat).reverse).length = 2 - 1 ∧
      get_room_peers t2 wRoom = [] ∧
      add_peer t2 ⟨3, wRoom⟩ = some ([], t3) ∧
      (2 ≤ 2 → get_room_peers t3 wRoom = [3]) ∧
      (2 = 1 → get_room_peers t3 wRoom = []) :=
  room_fill_spec 2 (by decide) wRoom rfl [1, 2] [1] 2 rfl (by decide) (by decide) 3

/-- C2 counterexample: for `N = 1` the claim says the `(N+1)`-th joiner
becomes the sole waiting member.  With capacity 1 (room `vRoom`), after
peer 5 joined, peer 6's join has an empty prior snapshot but instantly
completes another batch: the membership set afterwards is `[]`, not
`[6]`. -/
theorem room_fill_n1_cex :
    ((joinSeq vRoom [5] initState).bind fun s =>
        (add_peer s ⟨6, vRoom⟩).map fun x => (x.1, get_room_peers x.2 vRoom)) =
      some ([], []) ∧ ([] : List Nat) ≠ [6] := by
  constructor
  · decide
  · decide

/-! ## C6 — uncapacitated-room membership -/

/-- Replaying room operations preserves `c6Inv` when no removed identity
rejoins: the final membership set is joined-so-far minus removed. -/
theorem replay_inv (R : RequestedRoom) (hR : R.next = none) :
    ∀ (evs : List RoomOp) (s : ServerState) (J Rm : Finset Nat),
      noRejoin evs Rm = true → c6Inv R s J Rm →
      ∃ t, replayRoomOps R evs s = some t ∧
        c6Inv R t (J ∪ joinedOf evs) (Rm ∪ removedOf evs) := by
  intro evs
  induction evs with
  | nil =>
    intro s J Rm _ hinv
    exact ⟨s, rfl, by simpa [joinedOf, removedOf] using hinv⟩
  | cons op rest ih =>
    intro s J Rm hnr hinv
    obtain ⟨hset, hnd, hdom, hroom⟩ := hinv
    cases op with
    | join i =>
      have hiRm : i ∉ Rm := by
        intro hmem
        simp [noRejoin, hmem] at hnr
      have hnr' : noRejoin rest Rm = true := by
        simpa [noRejoin, hiRm] using hnr
      have hstep : add_peer s ⟨i, R⟩ = some (s.rooms R, { s with
          clients := upd s.clients i (some ⟨i, R⟩)
          rooms := upd s.rooms R (hsInsert (s.rooms R) i) }) := by
        simp [add_peer, hR]
      have hinv' : c6Inv R { s with
          clients := upd s.clients i (some ⟨i, R⟩)
          rooms := upd s.rooms R (hsInsert (s.rooms R) i) } (insert i J) Rm := by
        refine ⟨?_, ?_, ?_, ?_⟩
        · simp only [upd_self]
          by_cases hil : i ∈ s.rooms R
          · have hiJ : i ∈ J := by
              have : i ∈ J \ Rm := by
                rw [← hset]
                exact List.mem_toFinset.mpr hil
              exact (Finset.mem_sdiff.mp this).1
            simp only [hsInsert, if_pos hil]
            rw [hset, Finset.insert_eq_self.mpr hiJ]
          · simp only [hsInsert, if_neg hil, List.toFinset_cons]
            rw [hset, Finset.insert_sdiff_of_not_mem J hiRm]
        · simp only [upd_self]
          by_cases hil : i ∈ s.rooms R
          · simpa [hsInsert, if_pos hil] using hnd
          · simp only [hsInsert, if_neg hil]
            exact List.nodup_cons.mpr ⟨hil, hnd⟩
        · intro x
          by_cases hx : x = i
          · subst hx
            simp [Finset.mem_sdiff, hiRm]
          · rw [show ({ s with
                clients := upd s.clients i (some ⟨i, R⟩)
                rooms := upd s.rooms R (hsInsert (s.rooms R) i) } :
                  ServerState).clients x = upd s.clients i (some ⟨i, R⟩) x from rfl,
              upd_ne _ _ _ hx, hdom x]
            simp [Finset.mem_sdiff, Finset.mem_insert, hx]
        · intro x p hp
          by_cases hx : x = i
          · subst hx
            rw [show ({ s with
                clients := upd s.clients x (some ⟨x, R⟩)
                rooms := upd s.rooms R (hsInsert (s.rooms R) x) } :
                  ServerState).clients x = upd s.clients x (some ⟨x, R⟩) x from rfl,
              upd_self] at hp
            cases hp
            rfl
          · rw [show ({ s with
                clients := upd s.clients i (some ⟨i, R⟩)
                rooms := upd s.rooms R (hsInsert (s.rooms R) i) } :
                  ServerState).clients x = upd s.clients i (some ⟨i, R⟩) x from rfl,
              upd_ne _ _ _ hx] at hp
            exact hroom x p hp
      obtain ⟨t, ht, htinv⟩ := ih _ (insert i J) Rm hnr' hinv'
      refine ⟨t, ?_, ?_⟩
      · simp only [replayRoomOps, hstep]
        exact ht
      · have h1 : insert i J ∪ joinedOf rest = J ∪ joinedOf (RoomOp.join i :: rest) := by
          simp [joinedOf, Finset.insert_union, Finset.union_insert]
        have h2 : Rm ∪ removedOf (RoomOp.join i :: rest) = Rm ∪ removedOf rest := by
          simp [removedOf]
        rw [← h1, h2]
        exact htinv
    | leave i =>
      have hnr' : noRejoin rest (insert i Rm) = true := by
        simpa [noRejoin] using hnr
      have hmassage : ∀ t, c6Inv R t (J ∪ joinedOf rest) (insert i Rm ∪ removedOf rest) →
          c6Inv R t (J ∪ joinedOf (RoomOp.leave i :: rest))
            (Rm ∪ removedOf (RoomOp.leave i :: rest)) := by
        intro t htinv
        have h1 : J ∪ joinedOf (RoomOp.leave i :: rest) = J ∪ joinedOf rest := by
          simp [joinedOf]
        have h2 : Rm ∪ removedOf (RoomOp.leave i :: rest) = insert i Rm ∪ removedOf rest := by
          simp [removedOf, Finset.insert_union, Finset.union_insert]
        rw [h1, h2]
        exact htinv
      cases hcl : s.clients i with
      | none =>
        have hiJRm : i ∉ J \ Rm := by
          intro hmem
          have h := (hdom i).mpr hmem
          rw [hcl] at h
          simp at h
        have hinv' : c6Inv R s J (insert i Rm) := by
          have hsd : J \ insert i Rm = J \ Rm := by
            rw [Finset.sdiff_insert]
            exact Finset.erase_eq_of_not_mem hiJRm
          exact ⟨by rw [hsd]; exact hset, hnd, fun x => by rw [hsd]; exact hdom x, hroom⟩
        obtain ⟨t, ht, htinv⟩ := ih s J (insert i Rm) hnr' hinv'
        refine ⟨t, ?_, hmassage t htinv⟩
        simp only [replayRoomOps, remove_peer, hcl]
        exact ht
      | some peer =>
        have hpR : peer.room = R := hroom i peer hcl
        have hiJ : i ∈ J \ Rm := (hdom i).mp (by rw [hcl]; rfl)
        have hstep : (remove_peer s i).2 = { s with
            clients := upd s.clients i none
            rooms := upd s.rooms R ((s.rooms R).erase i) } := by
          simp [remove_peer, hcl, hpR]
        have hinv' : c6Inv R { s with
            clients := upd s.clients i none
            rooms := upd s.rooms R ((s.rooms R).erase i) } J (insert i Rm) := by
          refine ⟨?_, ?_, ?_, ?_⟩
          · simp only [upd_self]
            have herase : ((s.rooms R).erase i).toFinset = (s.rooms R).toFinset.erase i := by
              ext x
              simp [hnd.mem_erase_iff, Finset.mem_erase, List.mem_toFinset, and_comm]
            rw [herase, hset, Finset.sdiff_insert]
          · simp only [upd_self]
            exact hnd.erase i
          · intro x
            by_cases hx : x = i
            · subst hx
              constructor
              · intro h
                rw [show ({ s with
                    clients := upd s.clients x none
                    rooms := upd s.rooms R ((s.rooms R).erase x) } :
                      ServerState).clients x = upd s.clients x none x from rfl,
                  upd_self] at h
                simp at h
              · intro hmem
                rw [Finset.mem_sdiff] at hmem
                exact absurd (Finset.mem_insert_self x Rm) hmem.2
            · rw [show ({ s with
                  clients := upd s.clients i none
                  rooms := upd s.rooms R ((s.rooms R).erase i) } :
                    ServerState).clients x = upd s.clients i none x from rfl,
                upd_ne _ _ _ hx, hdom x]
              rw [Finset.mem_sdiff, Finset.mem_sdiff]
              constructor
              · intro hmem
                exact ⟨hmem.1, by simp [Finset.mem_insert, hx, hmem.2]⟩
              · intro hmem
                exact ⟨hmem.1, fun hc => hmem.2 (Finset.mem_insert_of_mem hc)⟩
          · intro x p hp
            by_cases hx : x = i
            · subst hx
              rw [show ({ s with
                  clients := upd s.clients x none
                  rooms := upd s.rooms R ((s.rooms R).erase x) } :
                    ServerState).clients x = upd s.clients x none x from rfl,
                upd_self] at hp
              cases hp
            · rw [show ({ s with
                  clients := upd s.clients i none
                  rooms := upd s.rooms R ((s.rooms R).erase i) } :
                    ServerState).clients x = upd s.clients i none x from rfl,
                upd_ne _ _ _ hx] at hp
              exact hroom x p hp
        obtain ⟨t, ht, htinv⟩ := ih _ J (insert i Rm) hnr' hinv'
        refine ⟨t, ?_, hmassage t htinv⟩
        simp only [replayRoomOps]
        rw [hstep]
        exact ht

/-- C6 amended: for every sequence of joins into an uncapacitated room
interleaved with arbitrary removals, in which no identity joins again
after having been removed, the membership set after replaying the
sequence equals the set of identities joined so far minus those removed.
(Without the no-rejoin condition a removed identity that rejoins is
present in the set yet counted as removed, refuting the plain
set-difference reading.) -/
theorem uncapacitated_membership_spec (R : RequestedRoom) (hR : R.next = none)
    (evs : List RoomOp) (hnr : noRejoin evs ∅ = true) :
    ∃ t, replayRoomOps R evs initState = some t ∧
      (get_room_peers t R).toFinset = joinedOf evs \ removedOf evs := by
  have hinv0 : c6Inv R initState ∅ ∅ := by
    refine ⟨by simp [initState], by simp [initState], ?_, ?_⟩
    · intro x
      simp [initState]
    · intro x p hp
      simp [initState] at hp
  obtain ⟨t, ht, htinv⟩ := replay_inv R hR evs initState ∅ ∅ hnr hinv0
  refine ⟨t, ht, ?_⟩
  have := htinv.1
  simpa [get_room_peers] using this

/-- Witness for `uncapacitated_membership_spec`: peers 1 and 2 join the
open room, then 1 is removed. -/
theorem uncapacitated_membership_spec_witness :
    ∃ t, replayRoomOps openRoom [RoomOp.join 1, RoomOp.join 2, RoomOp.leave 1] initState =
        some t ∧
      (get_room_peers t openRoom).toFinset =
        joinedOf [RoomOp.join 1, RoomOp.join 2, RoomOp.leave 1] \
          removedOf [RoomOp.join 1, RoomOp.join 2, RoomOp.leave 1] :=
  uncapacitated_membership_spec openRoom rfl [RoomOp.join 1, RoomOp.join 2, RoomOp.leave 1]
    (by decide)

/-- C6 counterexample: the sequence join 1, remove 1, join 1 into the
open room leaves the membership set `{1}`, while "joined so far minus
removed" is `{1} \ {1} = ∅` — the claim fails when a removed identity
rejoins. -/
theorem uncapacitated_rejoin_cex :
    ((replayRoomOps openRoom [RoomOp.join 1, RoomOp.leave 1, RoomOp.join 1] initState).map
        fun t => (get_room_peers t openRoom).toFinset) = some {1} ∧
    joinedOf [RoomOp.join 1, RoomOp.leave 1, RoomOp.join 1] \
        removedOf [RoomOp.join 1, RoomOp.leave 1, RoomOp.join 1] = (∅ : Finset Nat) ∧
    ({1} : Finset Nat) ≠ ∅ := by
  refine ⟨?_, ?_, ?_⟩
  · decide
  · decide
  · decide

/-! ## C7 — membership-set / ActivePeer consistency -/

/-- Under fresh joins, every reachable state satisfies the membership
invariant and keeps all room sets duplicate-free. -/
theorem reachableFresh_inv {s : ServerState} (h : ReachableFresh s) :
    roomsClientsConsistent s ∧ ∀ r, (s.rooms r).Nodup := by
  induction h with
  | base =>
    constructor
    · intro r q hq
      simp [initState] at hq
    · intro r
      simp [initState]
  | waiting o r hs ih => exact ih
  | assign o i hs heq ih =>
    rename_i s' t'
    cases hw : s'.clients_waiting o with
    | none => simp [assign_id_to_waiting_client, hw] at heq
    | some room =>
      simp only [assign_id_to_waiting_client, hw, Option.some.injEq] at heq
      subst heq
      exact ih
  | claim i hs heq ih =>
    rename_i s' t' r'
    cases hw : s'.clients_in_queue i with
    | none => simp [remove_waiting_peer, hw] at heq
    | some room =>
      simp only [remove_waiting_peer, hw, Option.some.injEq, Prod.mk.injEq] at heq
      obtain ⟨-, heq2⟩ := heq
      subst heq2
      exact ih
  | join p hs hfresh heq ih =>
    rename_i s' t' l'
    obtain ⟨hcons, hnodup⟩ := ih
    have hcap := add_peer_ne_zero heq
    obtain ⟨t2, ht2, htc, hrooms, -, -⟩ := add_peer_clients s' p hcap
    rw [heq] at ht2
    simp only [Option.some.injEq, Prod.mk.injEq] at ht2
    obtain ⟨-, ht2'⟩ := ht2
    subst ht2'
    constructor
    · intro r q hq
      rcases hrooms with hr | hr
      · rw [hr] at hq
        by_cases hrp : r = p.room
        · subst hrp
          rw [upd_self, hsInsert] at hq
          by_cases hil : p.uuid ∈ s'.rooms p.room
          · obtain ⟨pp, hpp, -⟩ := hcons p.room p.uuid hil
            rw [hfresh] at hpp
            cases hpp
          · rw [if_neg hil] at hq
            rcases List.mem_cons.mp hq with hq1 | hq2
            · subst hq1
              refine ⟨p, ?_, rfl⟩
              rw [htc, upd_self]
            · have hqne : q ≠ p.uuid := fun hcontra => hil (hcontra ▸ hq2)
              obtain ⟨pp, hpp, hpr⟩ := hcons p.room q hq2
              refine ⟨pp, ?_, hpr⟩
              rw [htc, upd_ne _ _ _ hqne]
              exact hpp
        · rw [upd_ne _ _ _ hrp] at hq
          obtain ⟨pp, hpp, hpr⟩ := hcons r q hq
          have hqne : q ≠ p.uuid := by
            intro hcontra
            rw [hcontra, hfresh] at hpp
            cases hpp
          refine ⟨pp, ?_, hpr⟩
          rw [htc, upd_ne _ _ _ hqne]
          exact hpp
      · rw [hr] at hq
        by_cases hrp : r = p.room
        · subst hrp
          rw [upd_self] at hq
          exact absurd hq (List.not_mem_nil q)
        · rw [upd_ne _ _ _ hrp] at hq
          obtain ⟨pp, hpp, hpr⟩ := hcons r q hq
          have hqne : q ≠ p.uuid := by
            intro hcontra
            rw [hcontra, hfresh] at hpp
            cases hpp
          refine ⟨pp, ?_, hpr⟩
          rw [htc, upd_ne _ _ _ hqne]
          exact hpp
    · intro r
      rcases hrooms with hr | hr
      · rw [hr]
        by_cases hrp : r = p.room
        · subst hrp
          rw [upd_self, hsInsert]
          by_cases hil : p.uuid ∈ s'.rooms p.room
          · rw [if_pos hil]
            exact hnodup p.room
          · rw [if_neg hil]
            exact List.nodup_cons.mpr ⟨hil, hnodup p.room⟩
        · rw [upd_ne _ _ _ hrp]
          exact hnodup r
      · rw [hr]
        by_cases hrp : r = p.room
        · subst hrp
          rw [upd_self]
          exact List.nodup_nil
        · rw [upd_ne _ _ _ hrp]
          exact hnodup r
  | leave i hs ih =>
    rename_i s'
    obtain ⟨hcons, hnodup⟩ := ih
    cases hcl : s'.clients i with
    | none =>
      constructor
      · intro r q hq
        simp only [remove_peer, hcl] at hq ⊢
        exact hcons r q hq
      · intro r
        simp only [remove_peer, hcl]
        exact hnodup r
    | some peer =>
      constructor
      · intro r q hq
        simp only [remove_peer, hcl] at hq ⊢
        by_cases hrp : r = peer.room
        · subst hrp
          rw [upd_self] at hq
          have hmem := List.mem_of_mem_erase hq
          have hqne : q ≠ i := ((hnodup peer.room).mem_erase_iff.mp hq).1
          obtain ⟨pp, hpp, hpr⟩ := hcons peer.room q hmem
          refine ⟨pp, ?_, hpr⟩
          rw [upd_ne _ _ _ hqne]
          exact hpp
        · rw [upd_ne _ _ _ hrp] at hq
          obtain ⟨pp, hpp, hpr⟩ := hcons r q hq
          have hqne : q ≠ i := by
            intro hcontra
            subst hcontra
            rw [hcl] at hpp
            cases hpp
            exact hrp hpr.symm
          refine ⟨pp, ?_, hpr⟩
          rw [upd_ne _ _ _ hqne]
          exact hpp
      · intro r
        simp only [remove_peer, hcl]
        by_cases hrp : r = peer.room
        · subst hrp
          rw [upd_self]
          exact (hnodup peer.room).erase i
        · rw [upd_ne _ _ _ hrp]
          exact hnodup r

/-- C7 amended: in every state reachable by the public operations in
which no identity joins while it is already active (exactly what the
transport's unique id assignment guarantees), every identity in a room's
membership set has a `clients` entry whose room equals that set's key. -/
theorem room_membership_invariant (s : ServerState) (h : ReachableFresh s) :
    roomsClientsConsistent s :=
  (reachableFresh_inv h).1

/-- Witness for `room_membership_invariant` at the initial state. -/
theorem room_membership_invariant_witness : roomsClientsConsistent initState :=
  room_membership_invariant initState ReachableFresh.base

/-- C7 counterexample: over arbitrary sequences of the public operations
the invariant fails — identity 0 joins `roomR` and then joins `roomS`
without leaving; `roomR`'s set still contains 0, but 0's client entry now
points at `roomS`. -/
theorem room_membership_invariant_cex :
    ¬ (∀ s : ServerState, Reachable s → roomsClientsConsistent s) := by
  intro hall
  have h1 : add_peer initState cexPeerR = some ([], cexS1) := rfl
  have h2 : add_peer cexS1 cexPeerS = some ([], cexS2) := rfl
  have hreach : Reachable cexS2 :=
    Reachable.join cexPeerS (Reachable.join cexPeerR Reachable.base h1) h2
  obtain ⟨p, hp, hroom⟩ := hall cexS2 hreach roomR 0 (by decide)
  have hcl : cexS2.clients 0 = some cexPeerS := by decide
  rw [hcl] at hp
  cases hp
  exact absurd hroom (by decide)
